import Mathlib

/-!
Verification of the layout / connection core of the tribal-app repository.

Coordinates are modelled as rationals (ℚ): the JavaScript source uses
IEEE doubles, but every operation the verified claims depend on
(addition, subtraction, multiplication, division by 2, `Math.min`,
`Math.max`, `Math.abs`, comparisons) is exact on the inputs considered,
so ℚ is a faithful exact-arithmetic embedding.

Sources embedded:
- `src/src/core/schema.ts` (data model),
- `src/src/utils/graphLayout.ts` (layout engine and graph analysis),
- `src/unnamed/part_007` (`ConnectionSystem`: geometry and hover logic),
- `src/unnamed/part_005` (`GraphCanvas`: connection-mode state machine).
-/

namespace Tribal

/-- A 2D point, `{ x: number; y: number }` from the schema. -/
structure Point where
  x : ℚ
  y : ℚ
deriving DecidableEq

/-- A node size, `{ width: number; height: number }`. -/
structure Size where
  width : ℚ
  height : ℚ
deriving DecidableEq

/-- Handle side, the TS union `'top' | 'right' | 'bottom' | 'left'`. -/
inductive HandleSide where
  | top
  | right
  | bottom
  | left
deriving DecidableEq

/-- Edge metadata as used by the connection system: the zod schema is an
open record, but the code only ever stores `sourceHandle` and
`targetPosition` (part_005, `completeConnection`). -/
structure EdgeMetadata where
  sourceHandle : Option HandleSide
  targetPosition : Option Point
deriving DecidableEq

/-- `NodeSchema` from `src/src/core/schema.ts`. -/
structure Node where
  id : String
  label : String
  markup : Option String
  position : Point
  size : Option Size
deriving DecidableEq

/-- `EdgeSchema` from `src/src/core/schema.ts` (the optional `size`
field is never consumed by the verified core and is omitted). -/
structure Edge where
  id : String
  source : String
  target : String
  directed : Bool
  label : Option String
  markup : Option String
  metadata : Option EdgeMetadata
deriving DecidableEq

/-- `GraphSchema`: node list plus edge list. -/
structure Graph where
  nodes : List Node
  edges : List Edge
deriving DecidableEq

/-- `createEdge` from `src/src/core/schema.ts`. -/
def createEdge (id source target : String) (directed : Bool := true)
    (label : Option String := none) (markup : Option String := none) : Edge :=
  { id := id, source := source, target := target, directed := directed,
    label := label, markup := markup, metadata := none }

/-! ## ConnectionGeometry (src/unnamed/part_007) -/

/-- `getClosestPointOnNode` from part_007 lines 14-59: distances to the
four supporting lines of the box edges, `Math.min` of the four, then an
if-chain with priority left, right, top, bottom, clamping the other
coordinate to the edge's extent. -/
def getClosestPointOnNode (nodePosition : Point) (nodeSize : Size)
    (targetPoint : Point) : Point :=
  let nodeLeft := nodePosition.x
  let nodeRight := nodePosition.x + nodeSize.width
  let nodeTop := nodePosition.y
  let nodeBottom := nodePosition.y + nodeSize.height
  let distanceToLeft := |targetPoint.x - nodeLeft|
  let distanceToRight := |targetPoint.x - nodeRight|
  let distanceToTop := |targetPoint.y - nodeTop|
  let distanceToBottom := |targetPoint.y - nodeBottom|
  let minDistance :=
    min (min distanceToLeft distanceToRight) (min distanceToTop distanceToBottom)
  if minDistance = distanceToLeft then
    { x := nodeLeft, y := max nodeTop (min nodeBottom targetPoint.y) }
  else if minDistance = distanceToRight then
    { x := nodeRight, y := max nodeTop (min nodeBottom targetPoint.y) }
  else if minDistance = distanceToTop then
    { x := max nodeLeft (min nodeRight targetPoint.x), y := nodeTop }
  else
    { x := max nodeLeft (min nodeRight targetPoint.x), y := nodeBottom }

/-- Membership of a point on the boundary of the axis-aligned box with
top-left corner `pos` and size `sz`. -/
def OnBoundary (pos : Point) (sz : Size) (p : Point) : Prop :=
  (pos.x ≤ p.x ∧ p.x ≤ pos.x + sz.width ∧ pos.y ≤ p.y ∧ p.y ≤ pos.y + sz.height)
  ∧ (p.x = pos.x ∨ p.x = pos.x + sz.width ∨ p.y = pos.y ∨ p.y = pos.y + sz.height)

instance (pos : Point) (sz : Size) (p : Point) : Decidable (OnBoundary pos sz p) := by
  unfold OnBoundary; infer_instance

/-- Squared Euclidean distance between two points. -/
def sqDist (p q : Point) : ℚ :=
  (p.x - q.x) * (p.x - q.x) + (p.y - q.y) * (p.y - q.y)

/-! ## ReactFlow node view and hover scan (src/unnamed/part_007) -/

/-- JavaScript `a || b` for a possibly-undefined number `a`: `b` when `a`
is undefined (`none`) or `0` (zero is falsy in JS); `a` otherwise. NaN,
the other falsy number, has no ℚ counterpart. -/
def jsNumOr (a : Option ℚ) (b : ℚ) : ℚ :=
  match a with
  | none => b
  | some v => if v = 0 then b else v

/-- JavaScript truthiness of a `string | null` value: false for `null`
and for the empty string. -/
def jsStrTruthy : Option String → Bool
  | none => false
  | some s => !s.isEmpty

/-- The fields of a ReactFlow node that the connection system reads:
`id`, `position`, the tribal node size under `data.node.size`, and the
ReactFlow-measured `width`/`height`. -/
structure RFNode where
  id : String
  position : Point
  dataWidth : Option ℚ
  dataHeight : Option ℚ
  width : Option ℚ
  height : Option ℚ
deriving DecidableEq

/-- Node size resolution used throughout part_007:
`node.data?.node?.size?.width || node.width || 192` (and 96 for height). -/
def rfNodeSize (node : RFNode) : Size :=
  { width := jsNumOr node.dataWidth (jsNumOr node.width 192),
    height := jsNumOr node.dataHeight (jsNumOr node.height 96) }

/-- The hover scan of `handleMouseMove` (part_007 lines 135-164): walk
the node list, skip the source node, and return the first node whose
box padded by 20 units contains the cursor, paired with
`getClosestPointOnNode` of the cursor on its unpadded box. -/
def findHoverTarget (sourceNodeId : Option String) (flowPosition : Point) :
    List RFNode → Option (String × Point)
  | [] => none
  | node :: rest =>
    if sourceNodeId = some node.id then
      findHoverTarget sourceNodeId flowPosition rest
    else
      let nodeSize := rfNodeSize node
      let nodeLeft := node.position.x
      let nodeRight := node.position.x + nodeSize.width
      let nodeTop := node.position.y
      let nodeBottom := node.position.y + nodeSize.height
      let padding : ℚ := 20
      if nodeLeft - padding ≤ flowPosition.x ∧ flowPosition.x ≤ nodeRight + padding ∧
          nodeTop - padding ≤ flowPosition.y ∧ flowPosition.y ≤ nodeBottom + padding then
        some (node.id, getClosestPointOnNode node.position nodeSize flowPosition)
      else
        findHoverTarget sourceNodeId flowPosition rest

/-! ## Connection-mode state machine (src/unnamed/part_005 GraphCanvas,
combined with the ConnectionSystem component state of part_007) -/

/-- The TS union `'directed' | 'undirected'`. -/
inductive EdgeDirection where
  | directed
  | undirected
deriving DecidableEq

/-- The `connectionMode` state of GraphCanvas (part_005 lines 767-778). -/
structure ConnectionMode where
  isActive : Bool
  sourceNodeId : Option String
  sourceHandlePosition : Option HandleSide
  edgeDirection : EdgeDirection
deriving DecidableEq

/-- The initial / reset value of `connectionMode`. -/
def inactiveMode : ConnectionMode :=
  { isActive := false, sourceNodeId := none, sourceHandlePosition := none,
    edgeDirection := .directed }

/-- Combined interactive state: GraphCanvas's `connectionMode` and
`graph`, plus the ConnectionSystem component's `cursorPosition`,
`hoveredNodeId` and `snapPosition` (part_007 lines 111-113). -/
structure CanvasState where
  mode : ConnectionMode
  graph : Graph
  cursorPosition : Option Point
  hoveredNodeId : Option String
  snapPosition : Option Point
deriving DecidableEq

/-- The terminal connection-request event: the data `completeConnection`
builds the new edge from. -/
structure ConnEvent where
  source : String
  target : String
  sourceHandle : Option HandleSide
  targetPosition : Option Point
deriving DecidableEq

/-- `cancelConnectionMode` (part_005 lines 835-842) together with the
ConnectionSystem effect that clears `cursorPosition`, `hoveredNodeId`
and `snapPosition` as soon as `isActive` turns false (part_007 lines
117-122). -/
def cancelSession (s : CanvasState) : CanvasState :=
  { s with mode := inactiveMode, cursorPosition := none,
           hoveredNodeId := none, snapPosition := none }

/-- `completeConnection` (part_005 lines 844-887). `now` stands for the
`Date.now()` timestamp used in the new edge's id. Returns the updated
state and the emitted connection-request event, if any. -/
def completeConnection (now : String) (s : CanvasState) (targetNodeId : String)
    (targetPosition : Option Point) : CanvasState × Option ConnEvent :=
  if !s.mode.isActive || !jsStrTruthy s.mode.sourceNodeId then
    (s, none)
  else
    match s.mode.sourceNodeId with
    | none => (s, none)
    | some src =>
      if src = targetNodeId then
        (cancelSession s, none)
      else
        let newEdge := createEdge ("E" ++ now) src targetNodeId
          (s.mode.edgeDirection = .directed) none (some "New connection")
        let newEdge :=
          match targetPosition, s.mode.sourceHandlePosition with
          | some tp, some sh =>
            { newEdge with metadata := some { sourceHandle := some sh, targetPosition := some tp } }
          | _, _ => newEdge
        let updatedGraph : Graph := { s.graph with edges := s.graph.edges ++ [newEdge] }
        ({ cancelSession s with graph := updatedGraph },
         some { source := src, target := targetNodeId,
                sourceHandle := s.mode.sourceHandlePosition,
                targetPosition := targetPosition })

/-- The pointer / keyboard / UI inputs that drive the connection session. -/
inductive Step where
  | startHandle (sourceNodeId : String) (side : HandleSide)
  | startMenu (sourceNodeId : String) (dir : EdgeDirection)
  | mouseMove (pos : Point) (nodes : List RFNode)
  | mouseUp (now : String)
  | nodeClick (now : String) (nodeId : String)
  | paneClick
  | keyEscape
deriving DecidableEq

/-- One transition of the connection session.
`startHandle` is `startConnectionFromHandle` (part_005 lines 797-806),
`startMenu` is `startConnectionMode` (lines 825-833), `mouseMove` is
`handleMouseMove` (part_007 lines 124-168, installed only while active),
`mouseUp` is `handleMouseUp` (lines 170-180), `nodeClick` is
`onNodeClick` in connection mode (part_005 lines 963-975), and
`paneClick`/`keyEscape` cancel an active session (part_005 lines
994-998 and 1109-1118). -/
def step (s : CanvasState) : Step → CanvasState × Option ConnEvent
  | .startHandle sourceNodeId side =>
    ({ s with mode := { isActive := true, sourceNodeId := some sourceNodeId,
                        sourceHandlePosition := some side, edgeDirection := .directed } },
     none)
  | .startMenu sourceNodeId dir =>
    ({ s with mode := { isActive := true, sourceNodeId := some sourceNodeId,
                        sourceHandlePosition := none, edgeDirection := dir } },
     none)
  | .mouseMove pos nodes =>
    if s.mode.isActive then
      let found := findHoverTarget s.mode.sourceNodeId pos nodes
      ({ s with cursorPosition := some pos,
                hoveredNodeId := found.map Prod.fst,
                snapPosition := found.map Prod.snd },
       none)
    else (s, none)
  | .mouseUp now =>
    if s.mode.isActive then
      if jsStrTruthy s.hoveredNodeId && s.snapPosition.isSome then
        match s.hoveredNodeId, s.snapPosition with
        | some t, some p => completeConnection now s t (some p)
        | _, _ => (s, none)
      else (s, none)
    else (s, none)
  | .nodeClick now nodeId =>
    if s.mode.isActive then completeConnection now s nodeId none
    else (s, none)
  | .paneClick =>
    if s.mode.isActive then (cancelSession s, none) else (s, none)
  | .keyEscape =>
    if s.mode.isActive then (cancelSession s, none) else (s, none)

/-- Run a sequence of steps, collecting every emitted terminal event. -/
def run (s : CanvasState) : List Step → CanvasState × List ConnEvent
  | [] => (s, [])
  | st :: rest =>
    let (s1, ev) := step s st
    let (s2, evs) := run s1 rest
    (s2, ev.toList ++ evs)

/-! ## Layout engine (src/src/utils/graphLayout.ts) -/

/-- `LayoutOptions`: every field optional. -/
structure LayoutOptions where
  width : Option ℚ := none
  height : Option ℚ := none
  iterations : Option ℕ := none
  nodeSpacing : Option ℚ := none
  linkDistance : Option ℚ := none
  linkStrength : Option ℚ := none
  repulsionStrength : Option ℚ := none
  centerStrength : Option ℚ := none
deriving DecidableEq

/-- `Required<LayoutOptions>` after the `{ ...DEFAULT_OPTIONS, ...options }`
merge. -/
structure ResolvedOptions where
  width : ℚ
  height : ℚ
  iterations : ℕ
  nodeSpacing : ℚ
  linkDistance : ℚ
  linkStrength : ℚ
  repulsionStrength : ℚ
  centerStrength : ℚ
deriving DecidableEq

/-- `DEFAULT_OPTIONS` merged with the caller's options: a field given by
the caller wins, an absent field falls back to the default
(graphLayout.ts lines 37-46 and the `{ ...DEFAULT_OPTIONS, ...options }`
spreads). -/
def resolveOptions (o : LayoutOptions) : ResolvedOptions :=
  { width := o.width.getD 1200,
    height := o.height.getD 800,
    iterations := o.iterations.getD 300,
    nodeSpacing := o.nodeSpacing.getD 100,
    linkDistance := o.linkDistance.getD 200,
    linkStrength := o.linkStrength.getD (1/10),
    repulsionStrength := o.repulsionStrength.getD (-1000),
    centerStrength := o.centerStrength.getD (1/10) }

/-- `LayoutResult`. -/
structure LayoutResult where
  nodes : List Node
  edges : List Edge
deriving DecidableEq

/-- The adjacency map both `isHierarchicalGraph` and
`applyHierarchicalLayout` build: for each source id, the targets of its
outgoing edges in edge-list order (the JS code folds `edges` into a
`Map<string, string[]>`, pushing each target onto its source's list). -/
def adjacencyOf (edges : List Edge) (s : String) : List String :=
  (edges.filter (fun e => e.source = s)).map Edge.target

/-- The `for (const neighbor of neighbors)` loop inside `hasCycle`,
parameterized by the visit function used on each neighbor: an early
`true` aborts, a `false` continues with the grown visited set. -/
def dfsVisitListAux
    (f : List String → List String → String → Option (Bool × List String)) :
    List String → List String → List String → Option (Bool × List String)
  | visited, _, [] => some (false, visited)
  | visited, stack, w :: ws =>
    match f visited stack w with
    | none => none
    | some (true, visited1) => some (true, visited1)
    | some (false, visited1) => dfsVisitListAux f visited1 stack ws

/-- The recursive `hasCycle` of `isHierarchicalGraph` (graphLayout.ts
lines 228-242). `fuel` is an embedding artifact bounding the recursion
depth; `dfs_isSome` below shows the fuel used by `isHierarchicalGraph`
never runs out, so the `none` branch is unreachable there. The
recursion stack is threaded downward (push on visit), which models
`recursionStack.add`/`delete`; the visited set only grows and is
returned. -/
def dfsVisit (adj : String → List String) :
    ℕ → List String → List String → String → Option (Bool × List String)
  | 0, _, _, _ => none
  | fuel + 1, visited, stack, nodeId =>
    if nodeId ∈ stack then some (true, visited)
    else if nodeId ∈ visited then some (false, visited)
    else dfsVisitListAux (dfsVisit adj fuel) (nodeId :: visited) (nodeId :: stack)
      (adj nodeId)

/-- The neighbor loop at a given fuel. -/
def dfsVisitList (adj : String → List String) (fuel : ℕ) :
    List String → List String → List String → Option (Bool × List String) :=
  dfsVisitListAux (dfsVisit adj fuel)

/-- The top loop of `isHierarchicalGraph` (lines 244-249): DFS from each
unvisited node; `some false` means a cycle was found. -/
def isHierarchicalAux (adj : String → List String) (fuel : ℕ) :
    List String → List String → Option Bool
  | _, [] => some true
  | visited, n :: rest =>
    if n ∈ visited then isHierarchicalAux adj fuel visited rest
    else
      match dfsVisit adj fuel visited [] n with
      | none => none
      | some (true, _) => some false
      | some (false, visited1) => isHierarchicalAux adj fuel visited1 rest

/-- `isHierarchicalGraph` (graphLayout.ts lines 212-252): false for an
edgeless graph, otherwise the DFS cycle scan. The fuel
`nodes.length + edges.length + 1` is shown sufficient in
`isHierarchicalAux_isSome`, so `getD` never supplies the default. -/
def isHierarchicalGraph (nodes : List Node) (edges : List Edge) : Bool :=
  if edges.length = 0 then false
  else
    (isHierarchicalAux (adjacencyOf edges) (nodes.length + edges.length + 1) []
      (nodes.map Node.id)).getD true

/-- Root nodes of `applyHierarchicalLayout` (lines 129-136): nodes whose
id is the target of no edge; if there are none, the first node. -/
def hierRootNodes (nodes : List Node) (edges : List Edge) : List Node :=
  let incomingEdges := edges.map Edge.target
  let rootNodes := nodes.filter (fun n => n.id ∉ incomingEdges)
  if rootNodes.isEmpty then
    match nodes with
    | [] => []
    | n :: _ => [n]
  else rootNodes

/-- The `for (const childId of children)` body of the BFS (lines
161-166): children without a level get `level + 1` and are enqueued;
`acc` accumulates the enqueued items in order. -/
def enqueueChildren (level : ℕ) :
    List String → List (String × ℕ) → List (String × ℕ) →
    List (String × ℕ) × List (String × ℕ)
  | [], levels, acc => (levels, acc)
  | c :: cs, levels, acc =>
    if (levels.lookup c).isSome then enqueueChildren level cs levels acc
    else enqueueChildren level cs (levels ++ [(c, level + 1)]) (acc ++ [(c, level + 1)])

/-- The `while (queue.length > 0)` BFS loop (lines 157-167). `fuel` is
an embedding artifact; `bfsLoop_isSome` shows the fuel used by
`hierLevels` suffices. -/
def bfsLoop (adj : String → List String) :
    ℕ → List (String × ℕ) → List (String × ℕ) → Option (List (String × ℕ))
  | 0, _, _ => none
  | fuel + 1, levels, queue =>
    match queue with
    | [] => some levels
    | (nodeId, level) :: rest =>
      let p := enqueueChildren level (adj nodeId) levels []
      bfsLoop adj fuel p.1 (rest ++ p.2)

/-- The level assignment of `applyHierarchicalLayout` (lines 147-167):
multi-source BFS from the roots, all at level 0. -/
def hierLevels (nodes : List Node) (edges : List Edge) : List (String × ℕ) :=
  let init := (hierRootNodes nodes edges).map (fun r => (r.id, 0))
  (bfsLoop (adjacencyOf edges) (3 * (nodes.length + edges.length) + 1) init init).getD init

/-- Append a node to the bucket of its level, keeping buckets in
first-seen level order (the `nodesByLevel` map of lines 170-177). -/
def addToBucket : List (ℕ × List Node) → ℕ → Node → List (ℕ × List Node)
  | [], level, node => [(level, [node])]
  | (l, ns) :: rest, level, node =>
    if l = level then (l, ns ++ [node]) :: rest
    else (l, ns) :: addToBucket rest level node

/-- Group the nodes by their BFS level, `levels.get(node.id) || 0`
defaulting unreached nodes to level 0. -/
def nodesByLevel (nodes : List Node) (levels : List (String × ℕ)) : List (ℕ × List Node) :=
  nodes.foldl (fun buckets node => addToBucket buckets ((levels.lookup node.id).getD 0) node) []

/-- Position one level's nodes (lines 184-198): shared
`y = level * 250`, x spaced by 300 starting from
`(width - (count - 1) * 300) / 2`. -/
def placeLevel (width : ℚ) (level : ℕ) (levelNodes : List Node) : List Node :=
  let y : ℚ := (level : ℚ) * 250
  let totalWidth : ℚ := ((levelNodes.length : ℚ) - 1) * 300
  let startX : ℚ := (width - totalWidth) / 2
  levelNodes.mapIdx (fun index node =>
    { node with position := { x := startX + (index : ℚ) * 300, y := y } })

/-- `applyHierarchicalLayout` (graphLayout.ts lines 122-204). -/
def applyHierarchicalLayout (nodes : List Node) (edges : List Edge)
    (options : LayoutOptions := {}) : LayoutResult :=
  let opts := resolveOptions options
  let buckets := nodesByLevel nodes (hierLevels nodes edges)
  { nodes := buckets.flatMap (fun b => placeLevel opts.width b.1 b.2),
    edges := edges }

/-! ### Force-directed layout

The d3-force simulation that `applyForceDirectedLayout` drives is a
third-party dependency whose source is not part of this repository;
only the wrapper (graphLayout.ts lines 55-113) is. The simulation is
therefore modelled from the spec: a fixed number of discrete relaxation
steps, each combining spring attraction along edges toward
`linkDistance` at `linkStrength`, pairwise repulsion at
`repulsionStrength` (negative pushes apart), a centering pull toward
`(width/2, height/2)` at `centerStrength`, and collision resolution for
node circles of radius `nodeSpacing` at fixed strength `0.7`; positions
are warm-started from the current node coordinates. Euclidean force
magnitudes are replaced by exact rational surrogates built from squared
distances: the claims settled against this model (dispatch, frame,
determinism) do not depend on the numeric force profile. -/

/-- A datum of the simulation: the `LayoutNode` of graphLayout.ts lines
12-15 (id, mutable x/y, the original node) plus the velocity d3 keeps on
the same object. -/
structure SimNode where
  id : String
  x : ℚ
  y : ℚ
  vx : ℚ
  vy : ℚ
  originalNode : Node
deriving DecidableEq

/-- Modelled from the spec: current position of the simulation node with
the given id, `none` for a dangling reference. -/
def simPosOf (ns : List SimNode) (id : String) : Option Point :=
  (ns.find? (fun m => m.id = id)).map (fun m => { x := m.x, y := m.y })

/-- Modelled from the spec: spring attraction along every incident edge
toward `linkDistance` at strength `linkStrength`. -/
def linkForceOn (opts : ResolvedOptions) (edges : List Edge) (ns : List SimNode)
    (n : SimNode) : Point :=
  edges.foldl (fun acc e =>
    let other :=
      if e.source = n.id then simPosOf ns e.target
      else if e.target = n.id then simPosOf ns e.source
      else none
    match other with
    | none => acc
    | some q =>
      let dx := q.x - n.x
      let dy := q.y - n.y
      let sq := dx * dx + dy * dy
      let c := opts.linkStrength * (sq - opts.linkDistance * opts.linkDistance) / (sq + 1)
      { x := acc.x + c * dx, y := acc.y + c * dy }) { x := 0, y := 0 }

/-- Modelled from the spec: pairwise inverse-distance repulsion between
all node pairs at strength `repulsionStrength` (negative = push apart). -/
def chargeForceOn (opts : ResolvedOptions) (ns : List SimNode) (n : SimNode) : Point :=
  ns.foldl (fun acc m =>
    if m.id = n.id then acc
    else
      let dx := n.x - m.x
      let dy := n.y - m.y
      let sq := dx * dx + dy * dy
      let c := -opts.repulsionStrength / (sq + 1)
      { x := acc.x + c * dx, y := acc.y + c * dy }) { x := 0, y := 0 }

/-- Modelled from the spec: centering pull toward
`(width / 2, height / 2)` at strength `centerStrength`. -/
def centerForceOn (opts : ResolvedOptions) (n : SimNode) : Point :=
  { x := opts.centerStrength * (opts.width / 2 - n.x),
    y := opts.centerStrength * (opts.height / 2 - n.y) }

/-- Modelled from the spec: collision resolution pushing apart node
circles of radius `nodeSpacing` that overlap, at fixed strength 0.7. -/
def collideForceOn (opts : ResolvedOptions) (ns : List SimNode) (n : SimNode) : Point :=
  let diameter := 2 * opts.nodeSpacing
  ns.foldl (fun acc m =>
    if m.id = n.id then acc
    else
      let dx := n.x - m.x
      let dy := n.y - m.y
      let sq := dx * dx + dy * dy
      if sq < diameter * diameter then
        let c := (7 / 10) * (diameter * diameter - sq) / (diameter * diameter + 1)
        { x := acc.x + c * dx, y := acc.y + c * dy }
      else acc) { x := 0, y := 0 }

/-- Modelled from the spec: one discrete relaxation step. Each node's
velocity accumulates the four forces and its position advances by the
velocity; only `x`, `y`, `vx`, `vy` change. -/
def simTick (opts : ResolvedOptions) (edges : List Edge) (ns : List SimNode) : List SimNode :=
  ns.map (fun n =>
    let f1 := linkForceOn opts edges ns n
    let f2 := chargeForceOn opts ns n
    let f3 := centerForceOn opts n
    let f4 := collideForceOn opts ns n
    let vx := n.vx + f1.x + f2.x + f3.x + f4.x
    let vy := n.vy + f1.y + f2.y + f3.y + f4.y
    { n with vx := vx, vy := vy, x := n.x + vx, y := n.y + vy })

/-- Modelled from the spec: `simulation.tick()` run `iterations` times
(the loop of graphLayout.ts lines 95-98). -/
def simRun (opts : ResolvedOptions) (edges : List Edge) : ℕ → List SimNode → List SimNode
  | 0, ns => ns
  | k + 1, ns => simRun opts edges k (simTick opts edges ns)

/-- `applyForceDirectedLayout` (graphLayout.ts lines 55-113): convert to
simulation data warm-started from current positions, run the fixed
number of ticks, and map back, replacing only each node's position.
(The JS `layoutNode.x || 0` guards `undefined`/NaN, which have no ℚ
counterpart.) -/
def applyForceDirectedLayout (nodes : List Node) (edges : List Edge)
    (options : LayoutOptions := {}) : LayoutResult :=
  let opts := resolveOptions options
  let layoutNodes := nodes.map (fun node =>
    SimNode.mk node.id node.position.x node.position.y 0 0 node)
  let finalNodes := simRun opts edges opts.iterations layoutNodes
  { nodes := finalNodes.map (fun ln =>
      { ln.originalNode with position := { x := ln.x, y := ln.y } }),
    edges := edges }

/-- `applyAutoLayout` (graphLayout.ts lines 261-288): 0 nodes →
unchanged, 1 node → centered at the canvas midpoint, otherwise
hierarchical when `isHierarchicalGraph` holds and force-directed when
not. -/
def applyAutoLayout (nodes : List Node) (edges : List Edge)
    (options : LayoutOptions := {}) : LayoutResult :=
  match nodes with
  | [] => { nodes := nodes, edges := edges }
  | [node] =>
    let opts := resolveOptions options
    { nodes := [{ node with position := { x := opts.width / 2, y := opts.height / 2 } }],
      edges := edges }
  | _ =>
    if isHierarchicalGraph nodes edges then
      applyHierarchicalLayout nodes edges options
    else
      applyForceDirectedLayout nodes edges options

/-! ## Spec-side definitions for refinement claims -/

/-- The spec's hover condition, in its words: the node's bounding box,
padded outward by 20 units, contains the position. -/
def specPaddedContains (node : RFNode) (p : Point) : Prop :=
  node.position.x - 20 ≤ p.x ∧ p.x ≤ node.position.x + (rfNodeSize node).width + 20 ∧
  node.position.y - 20 ≤ p.y ∧ p.y ≤ node.position.y + (rfNodeSize node).height + 20

instance (node : RFNode) (p : Point) : Decidable (specPaddedContains node p) := by
  unfold specPaddedContains; infer_instance

/-- The spec's description of `updateCursor`: the first candidate node
(excluding the source) whose padded box contains the position, paired
with the closest boundary point on its true (unpadded) box; `none` when
no candidate matches. -/
def specHoverTarget (sourceNodeId : Option String) (p : Point) (nodes : List RFNode) :
    Option (String × Point) :=
  (nodes.find? (fun n => decide (sourceNodeId ≠ some n.id ∧ specPaddedContains n p))).map
    (fun n => (n.id, getClosestPointOnNode n.position (rfNodeSize n) p))

/-- The spec's root-set description: the nodes with zero in-degree,
falling back to the first node in input order when that set is empty. -/
def specRootNodes (nodes : List Node) (edges : List Edge) : List Node :=
  let roots := nodes.filter (fun n => (edges.filter (fun e => e.target = n.id)).length = 0)
  if roots.isEmpty then nodes.take 1 else roots

/-- Erase a node's position: what remains must pass through layout
untouched. -/
def clearPos (n : Node) : Node :=
  { n with position := { x := 0, y := 0 } }

/-! ## Concrete fixtures used by counterexamples and witnesses -/

/-- A ReactFlow node "B" at (200, 0) with no explicit size (so the
192 × 96 defaults apply). -/
def nodeB : RFNode :=
  { id := "B", position := { x := 200, y := 0 }, dataWidth := none,
    dataHeight := none, width := none, height := none }

/-- The idle canvas state over the empty graph. -/
def emptyCanvas : CanvasState :=
  { mode := inactiveMode, graph := { nodes := [], edges := [] },
    cursorPosition := none, hoveredNodeId := none, snapPosition := none }

/-- Drag from node "A"'s right handle, move over node "B", release. -/
def demoTrace : List Step :=
  [Step.startHandle "A" HandleSide.right,
   Step.mouseMove { x := 250, y := 48 } [nodeB],
   Step.mouseUp "0"]

/-- Drag from node "A"'s right handle, then click node "A" itself. -/
def selfClickTrace : List Step :=
  [Step.startHandle "A" HandleSide.right, Step.nodeClick "0" "A"]

/-- An active session dragging from "A" with a hovered target "B". -/
def hoverBState : CanvasState :=
  { mode := { isActive := true, sourceNodeId := some "A",
              sourceHandlePosition := some HandleSide.right,
              edgeDirection := .directed },
    graph := { nodes := [], edges := [] },
    cursorPosition := some { x := 1, y := 2 },
    hoveredNodeId := some "B",
    snapPosition := some { x := 1, y := 2 } }

/-! ## Graph-theoretic notions and proof invariants -/

/-- Every level binding is either a root binding (level 0) or comes from
a parent one level up through an adjacency edge. -/
def LevelsClosed (adj : String → List String) (levels : List (String × ℕ)) : Prop :=
  ∀ pr ∈ levels, pr.2 = 0 ∨
    ∃ q lq, pr.1 ∈ adj q ∧ levels.lookup q = some lq ∧ pr.2 = lq + 1

/-- Every queued item is already bound in the level map at its own
level. -/
def QueueOk (levels : List (String × ℕ)) (queue : List (String × ℕ)) : Prop :=
  ∀ pr ∈ queue, levels.lookup pr.1 = some pr.2

/-- Reflexive-transitive reachability along the adjacency map. -/
inductive Reaches (adj : String → List String) : String → String → Prop where
  | refl (v : String) : Reaches adj v v
  | tail {u v w : String} : Reaches adj u v → w ∈ adj v → Reaches adj u w

/-- A directed cycle through `v`: one edge out of `v` to a node that
reaches `v` back. -/
def CycleAt (adj : String → List String) (v : String) : Prop :=
  ∃ w ∈ adj v, Reaches adj w v

/-- The DFS recursion stack, top first, is a chain ending at the node
under visit: the node is a successor of the top entry, which is a
successor of the next, and so on. -/
def ChainTo (adj : String → List String) : List String → String → Prop
  | [], _ => True
  | t :: rest, v => v ∈ adj t ∧ ChainTo adj rest t

/-- No cycle is reachable from `u`. -/
def Safe (adj : String → List String) (u : String) : Prop :=
  ∀ z, Reaches adj u z → ¬CycleAt adj z

/-- DFS invariant: a finished node (visited and off the stack) has all
its successors visited and no reachable cycle. -/
def DfsInv (adj : String → List String) (visited stack : List String) : Prop :=
  ∀ u ∈ visited, u ∉ stack → (∀ w ∈ adj u, w ∈ visited) ∧ Safe adj u

/-- How many universe entries the DFS has not yet visited: the measure
showing its fuel suffices. -/
def cntNotVisited (U visited : List String) : ℕ :=
  (U.filter (fun x => !decide (x ∈ visited))).length

/-- A bare node fixture. -/
def mkNode (id : String) : Node :=
  { id := id, label := id, markup := none, position := { x := 0, y := 0 }, size := none }

/-- Nodes A, B, C. -/
def chainNodes : List Node := [mkNode "A", mkNode "B", mkNode "C"]

/-- Edges A→B, B→C. -/
def chainEdges : List Edge := [createEdge "E1" "A" "B", createEdge "E2" "B" "C"]

/-- Nodes A, B, C with edges A→B→C→A (a cycle). -/
def cycleEdges : List Edge :=
  [createEdge "E1" "A" "B", createEdge "E2" "B" "C", createEdge "E3" "C" "A"]

/-- Nodes A, B, C, D. -/
def treeNodes : List Node := [mkNode "A", mkNode "B", mkNode "C", mkNode "D"]

/-- Edges A→B, A→C, B→D (a tree). -/
def treeEdges : List Edge :=
  [createEdge "E1" "A" "B", createEdge "E2" "A" "C", createEdge "E3" "B" "D"]

/-! ## Theorems -/

/-- C1: the claim is false. For the box at (0,0) with size (100,50) and
target point (500,25), `getClosestPointOnNode` returns (100,0) — it
snaps to the top edge, whose supporting line is 25 away, and clamps x —
not the right-edge midpoint (100,25), which lies on the boundary and is
strictly nearer to the target. -/
theorem getClosestPointOnNode_example_cex :
    getClosestPointOnNode { x := 0, y := 0 } { width := 100, height := 50 }
        { x := 500, y := 25 } = { x := 100, y := 0 } ∧
    OnBoundary { x := 0, y := 0 } { width := 100, height := 50 } { x := 100, y := 25 } ∧
    sqDist { x := 100, y := 25 } { x := 500, y := 25 } <
      sqDist (getClosestPointOnNode { x := 0, y := 0 } { width := 100, height := 50 }
        { x := 500, y := 25 }) { x := 500, y := 25 } := by
  refine ⟨?_, ?_, ?_⟩
  · simp only [getClosestPointOnNode]; norm_num
  · simp only [OnBoundary]; norm_num
  · simp only [getClosestPointOnNode, sqDist]; norm_num

/-- C1 (amended): for a box of non-negative size,
`getClosestPointOnNode` returns a point on the box's boundary — the
clamped projection onto the edge whose supporting line is nearest (with
priority left, right, top, bottom) — but not always the globally
nearest boundary point; for the box at (0,0) with size (100,50) and
target (500,25) it returns (100,0). -/
theorem getClosestPointOnNode_boundary (pos : Point) (sz : Size) (p : Point)
    (hw : 0 ≤ sz.width) (hh : 0 ≤ sz.height) :
    OnBoundary pos sz (getClosestPointOnNode pos sz p) ∧
    getClosestPointOnNode { x := 0, y := 0 } { width := 100, height := 50 }
      { x := 500, y := 25 } = { x := 100, y := 0 } := by
  constructor
  · simp only [getClosestPointOnNode, OnBoundary]
    split_ifs with h1 h2 h3
    · exact ⟨⟨le_refl _, le_add_of_nonneg_right hw, le_max_left _ _,
        max_le (le_add_of_nonneg_right hh) (min_le_left _ _)⟩, Or.inl rfl⟩
    · exact ⟨⟨le_add_of_nonneg_right hw, le_refl _, le_max_left _ _,
        max_le (le_add_of_nonneg_right hh) (min_le_left _ _)⟩, Or.inr (Or.inl rfl)⟩
    · exact ⟨⟨le_max_left _ _, max_le (le_add_of_nonneg_right hw) (min_le_left _ _),
        le_refl _, le_add_of_nonneg_right hh⟩, Or.inr (Or.inr (Or.inl rfl))⟩
    · exact ⟨⟨le_max_left _ _, max_le (le_add_of_nonneg_right hw) (min_le_left _ _),
        le_add_of_nonneg_right hh, le_refl _⟩, Or.inr (Or.inr (Or.inr rfl))⟩
  · simp only [getClosestPointOnNode]; norm_num

/-- Witness for C1's amended theorem at the unit box and an outside
point. -/
theorem getClosestPointOnNode_boundary_witness :
    OnBoundary { x := 0, y := 0 } { width := 1, height := 1 }
      (getClosestPointOnNode { x := 0, y := 0 } { width := 1, height := 1 }
        { x := 5, y := 7 }) ∧
    getClosestPointOnNode { x := 0, y := 0 } { width := 100, height := 50 }
      { x := 500, y := 25 } = { x := 100, y := 0 } :=
  getClosestPointOnNode_boundary { x := 0, y := 0 } { width := 1, height := 1 }
    { x := 5, y := 7 } (by norm_num) (by norm_num)

/-- Any event emitted by `completeConnection` has distinct source and
target: the `sourceNodeId === targetNodeId` guard fires first. -/
theorem completeConnection_event_ne (now : String) (s : CanvasState)
    (target : String) (tp : Option Point) (ev : ConnEvent)
    (h : (completeConnection now s target tp).2 = some ev) :
    ev.source ≠ ev.target := by
  unfold completeConnection at h
  split at h
  · simp at h
  · split at h
    · simp at h
    · rename_i src hsrc
      split at h
      · simp at h
      · rename_i hne
        simp only at h
        injection h with h
        subst h
        simpa using hne

/-- Any event emitted by a single step has distinct source and target. -/
theorem step_event_ne (s : CanvasState) (st : Step) (ev : ConnEvent)
    (h : (step s st).2 = some ev) : ev.source ≠ ev.target := by
  cases st with
  | startHandle sourceNodeId side => simp [step] at h
  | startMenu sourceNodeId dir => simp [step] at h
  | mouseMove pos nodes =>
    simp only [step] at h
    split at h <;> simp at h
  | mouseUp now =>
    simp only [step] at h
    split at h
    · split at h
      · split at h
        · exact completeConnection_event_ne _ _ _ _ _ h
        · simp at h
      · simp at h
    · simp at h
  | nodeClick now nodeId =>
    simp only [step] at h
    split at h
    · exact completeConnection_event_ne _ _ _ _ _ h
    · simp at h
  | paneClick =>
    simp only [step] at h
    split at h <;> simp at h
  | keyEscape =>
    simp only [step] at h
    split at h <;> simp at h

/-- C2: over every sequence of connection-session steps, every emitted
terminal connection-request event has a target distinct from its
source — a self-loop is never emitted. -/
theorem run_no_self_loop (s0 : CanvasState) (steps : List Step) :
    ∀ ev ∈ (run s0 steps).2, ev.source ≠ ev.target := by
  induction steps generalizing s0 with
  | nil => simp [run]
  | cons st rest ih =>
    intro ev hev
    simp only [run] at hev
    rcases List.mem_append.mp hev with hmem | hmem
    · exact step_event_ne s0 st ev (by simpa [Option.mem_toList] using hmem)
    · exact ih _ ev hmem

/-- Witness for C2 on the drag A → hover B → release trace, whose one
emitted event is A → B. -/
theorem run_no_self_loop_witness :
    ({ source := "A", target := "B", sourceHandle := some HandleSide.right,
       targetPosition := some { x := 250, y := 0 } } : ConnEvent).source ≠
    ({ source := "A", target := "B", sourceHandle := some HandleSide.right,
       targetPosition := some { x := 250, y := 0 } } : ConnEvent).target := by
  have hfind : findHoverTarget (some "A") { x := 250, y := 48 } [nodeB] =
      some ("B", { x := 250, y := 0 }) := by
    simp only [findHoverTarget, nodeB, rfNodeSize, jsNumOr]
    rw [if_neg (by decide)]
    rw [if_pos (by norm_num)]
    simp only [getClosestPointOnNode]
    norm_num
  have hB : ("B" : String).isEmpty = false := by decide
  have hA : ("A" : String).isEmpty = false := by decide
  have hrun : (run emptyCanvas demoTrace).2 =
      [{ source := "A", target := "B", sourceHandle := some HandleSide.right,
         targetPosition := some { x := 250, y := 0 } }] := by
    simp [run, step, demoTrace, emptyCanvas, inactiveMode, hfind,
      completeConnection, jsStrTruthy, hB, hA, createEdge, cancelSession]
  refine run_no_self_loop emptyCanvas demoTrace _ ?_
  rw [hrun]
  exact List.mem_singleton.mpr rfl

/-- C3: the claim is false. From the idle state, starting a drag from
node "A" and then clicking "A" itself emits no event but cancels the
session: it ends Idle (`isActive = false`), not Active as the claim
states (`completeConnection` calls `cancelConnectionMode` on a
self-target, part_005 lines 853-857). -/
theorem commit_self_target_cancels_cex :
    (run emptyCanvas selfClickTrace).2 = [] ∧
    (run emptyCanvas selfClickTrace).1.mode.isActive = false ∧
    (step emptyCanvas (Step.startHandle "A" HandleSide.right)).1.mode.isActive = true := by
  refine ⟨?_, ?_, ?_⟩ <;> rfl

/-- C3 (amended): while Active with source S, a mouse-up commit with no
hovered target or no snap point emits no event and leaves the state
unchanged (still Active); a commit whose clicked target equals S emits
no event but cancels the session to Idle; a mouse-up commit with a
hovered target T ≠ S and a snap point emits the terminal event
{source := S, target := T} and moves the session to Idle. -/
theorem commit_cases (s : CanvasState) (now S : String)
    (hA : s.mode.isActive = true) (hS : s.mode.sourceNodeId = some S) (hne : S ≠ "") :
    ((s.hoveredNodeId = none ∨ s.snapPosition = none) →
      step s (Step.mouseUp now) = (s, none)) ∧
    (step s (Step.nodeClick now S) = (cancelSession s, none)) ∧
    (∀ T p, s.hoveredNodeId = some T → s.snapPosition = some p → T ≠ "" → T ≠ S →
      (step s (Step.mouseUp now)).1.mode = inactiveMode ∧
      (step s (Step.mouseUp now)).2 =
        some { source := S, target := T,
               sourceHandle := s.mode.sourceHandlePosition,
               targetPosition := some p }) := by
  have hSempty : S.isEmpty = false := by
    cases h : S.isEmpty
    · rfl
    · exact absurd ((String.isEmpty_iff S).mp h) hne
  refine ⟨?_, ?_, ?_⟩
  · rintro (h | h) <;> simp [step, hA, h, jsStrTruthy]
  · simp only [step, hA, if_true]
    simp [completeConnection, hA, hS, jsStrTruthy, hSempty]
  · intro T p hT hp hTne hTS
    have hTempty : T.isEmpty = false := by
      cases h : T.isEmpty
      · rfl
      · exact absurd ((String.isEmpty_iff T).mp h) hTne
    simp only [step, hA, if_true, hT, hp, jsStrTruthy, hTempty, Option.isSome_some,
      Bool.not_false, Bool.and_self, if_true]
    simp only [completeConnection, hA, hS, jsStrTruthy, hSempty, Bool.not_false,
      Bool.not_true, Bool.false_or]
    rw [if_neg (by simp)]
    rw [if_neg (by simpa using Ne.symm hTS)]
    exact ⟨rfl, rfl⟩

/-- Witness for C3's amended theorem at a concrete Active state hovering
node "B". -/
theorem commit_cases_witness :
    ((hoverBState.hoveredNodeId = none ∨ hoverBState.snapPosition = none) →
      step hoverBState (Step.mouseUp "0") = (hoverBState, none)) ∧
    (step hoverBState (Step.nodeClick "0" "A") = (cancelSession hoverBState, none)) ∧
    (∀ T p, hoverBState.hoveredNodeId = some T → hoverBState.snapPosition = some p →
      T ≠ "" → T ≠ "A" →
      (step hoverBState (Step.mouseUp "0")).1.mode = inactiveMode ∧
      (step hoverBState (Step.mouseUp "0")).2 =
        some { source := "A", target := T,
               sourceHandle := hoverBState.mode.sourceHandlePosition,
               targetPosition := some p }) :=
  commit_cases hoverBState "0" "A" rfl rfl (by decide)

/-- C9: `applyForceDirectedLayout` is deterministic — two runs on equal
node lists (same initial positions), equal edge lists and equal options
produce equal results. -/
theorem applyForceDirectedLayout_deterministic (n1 n2 : List Node) (e1 e2 : List Edge)
    (o1 o2 : LayoutOptions) (hn : n1 = n2) (he : e1 = e2) (ho : o1 = o2) :
    applyForceDirectedLayout n1 e1 o1 = applyForceDirectedLayout n2 e2 o2 := by
  subst hn; subst he; subst ho; rfl

/-- Witness for C9 at the empty graph. -/
theorem applyForceDirectedLayout_deterministic_witness :
    applyForceDirectedLayout [] [] {} = applyForceDirectedLayout [] [] {} :=
  applyForceDirectedLayout_deterministic [] [] [] [] {} {} rfl rfl rfl

/-- C10: invoking `completeConnection` when the session is not active or
has no source node is a no-op — no event, and the state (graph
included) is returned unchanged. -/
theorem completeConnection_inactive_noop (now : String) (s : CanvasState)
    (target : String) (tp : Option Point)
    (h : s.mode.isActive = false ∨ s.mode.sourceNodeId = none) :
    completeConnection now s target tp = (s, none) := by
  unfold completeConnection
  rcases h with h | h
  · rw [if_pos (by simp [h])]
  · rw [if_pos (by simp [h, jsStrTruthy])]

/-- Witness for C10 at the idle empty canvas. -/
theorem completeConnection_inactive_noop_witness :
    completeConnection "0" emptyCanvas "B" none = (emptyCanvas, none) :=
  completeConnection_inactive_noop "0" emptyCanvas "B" none (Or.inl rfl)

/-- C5: `applyAutoLayout` dispatch — the empty node list passes through
unchanged; a single node is centered at
(width / 2, height / 2) of the resolved options; with at least two
nodes the result is the hierarchical layout exactly when
`isHierarchicalGraph` holds and the force-directed layout otherwise. -/
theorem applyAutoLayout_dispatch (nodes : List Node) (edges : List Edge)
    (options : LayoutOptions) :
    (nodes = [] → applyAutoLayout nodes edges options = { nodes := nodes, edges := edges }) ∧
    (∀ n, nodes = [n] → applyAutoLayout nodes edges options =
      { nodes := [{ n with position := { x := (resolveOptions options).width / 2,
                                         y := (resolveOptions options).height / 2 } }],
        edges := edges }) ∧
    (2 ≤ nodes.length →
      applyAutoLayout nodes edges options =
        if isHierarchicalGraph nodes edges then applyHierarchicalLayout nodes edges options
        else applyForceDirectedLayout nodes edges options) := by
  refine ⟨?_, ?_, ?_⟩
  · rintro rfl; rfl
  · rintro n rfl; rfl
  · intro hlen
    match nodes, hlen with
    | a :: b :: rest, _ => rfl

/-- The hover scan of `handleMouseMove` computes exactly the spec's
description: first non-source candidate whose 20-padded box contains
the position, with the boundary projection on the unpadded box. -/
theorem findHoverTarget_eq_spec (src : Option String) (p : Point) :
    ∀ nodes, findHoverTarget src p nodes = specHoverTarget src p nodes := by
  intro nodes
  induction nodes with
  | nil => rfl
  | cons n rest ih =>
    by_cases h1 : src = some n.id
    · have hp : (decide (src ≠ some n.id ∧ specPaddedContains n p)) = false := by
        simp [h1]
      rw [specHoverTarget]
      simp only [List.find?_cons, hp]
      rw [findHoverTarget, if_pos h1]
      exact ih
    · simp only [findHoverTarget, if_neg h1, specHoverTarget]
      split_ifs with hc
      · have hp : (decide (src ≠ some n.id ∧ specPaddedContains n p)) = true := by
          rw [decide_eq_true_eq]
          exact ⟨h1, hc⟩
        simp only [List.find?_cons, hp]
        rfl
      · have hp : (decide (src ≠ some n.id ∧ specPaddedContains n p)) = false := by
          rw [decide_eq_false_iff_not]
          rintro ⟨-, h⟩
          exact hc h
        simp only [List.find?_cons, hp]
        exact ih

/-- C4: while the session is Active, a cursor update emits no event and
sets `hoveredNodeId` and `snapPosition` to exactly the spec's
description — the first candidate node (in list order, excluding the
source) whose box padded by 20 contains the cursor, with the boundary
projection on its unpadded box; both `none` when no candidate matches. -/
theorem mouseMove_hover_spec (s : CanvasState) (p : Point) (nodes : List RFNode)
    (hA : s.mode.isActive = true) :
    (step s (Step.mouseMove p nodes)).2 = none ∧
    (step s (Step.mouseMove p nodes)).1.hoveredNodeId =
      (specHoverTarget s.mode.sourceNodeId p nodes).map Prod.fst ∧
    (step s (Step.mouseMove p nodes)).1.snapPosition =
      (specHoverTarget s.mode.sourceNodeId p nodes).map Prod.snd := by
  simp [step, hA, findHoverTarget_eq_spec]

/-- Witness for C4 at an active session moving the cursor over node "B". -/
theorem mouseMove_hover_spec_witness :
    (step hoverBState (Step.mouseMove { x := 250, y := 48 } [nodeB])).2 = none ∧
    (step hoverBState (Step.mouseMove { x := 250, y := 48 } [nodeB])).1.hoveredNodeId =
      (specHoverTarget hoverBState.mode.sourceNodeId { x := 250, y := 48 }
        [nodeB]).map Prod.fst ∧
    (step hoverBState (Step.mouseMove { x := 250, y := 48 } [nodeB])).1.snapPosition =
      (specHoverTarget hoverBState.mode.sourceNodeId { x := 250, y := 48 }
        [nodeB]).map Prod.snd :=
  mouseMove_hover_spec hoverBState { x := 250, y := 48 } [nodeB] rfl

/-- One simulation tick changes only positions and velocities: the
underlying original nodes pass through untouched. -/
theorem simTick_originalNodes (opts : ResolvedOptions) (edges : List Edge)
    (ns : List SimNode) :
    (simTick opts edges ns).map SimNode.originalNode = ns.map SimNode.originalNode := by
  simp only [simTick, List.map_map]
  rfl

/-- Any number of simulation ticks preserves the original nodes. -/
theorem simRun_originalNodes (opts : ResolvedOptions) (edges : List Edge) :
    ∀ (k : ℕ) (ns : List SimNode),
      (simRun opts edges k ns).map SimNode.originalNode = ns.map SimNode.originalNode := by
  intro k
  induction k with
  | zero => intro ns; rfl
  | succ k ih =>
    intro ns
    rw [simRun, ih, simTick_originalNodes]

/-- Repositioning one level's nodes changes nothing besides positions. -/
theorem placeLevel_map_clearPos (w : ℚ) (l : ℕ) (ns : List Node) :
    (placeLevel w l ns).map clearPos = ns.map clearPos := by
  calc (placeLevel w l ns).map clearPos
      = ns.enum.map (clearPos ∘ Prod.snd) := by
        simp only [placeLevel, List.mapIdx_eq_enum_map, List.map_map]
        rfl
    _ = (ns.enum.map Prod.snd).map clearPos := by rw [List.map_map]
    _ = ns.map clearPos := by rw [List.enum_map_snd]

/-- Appending a node to its level bucket permutes the flattened buckets
by appending the node. -/
theorem addToBucket_flatten_perm (bs : List (ℕ × List Node)) (k : ℕ) (n : Node) :
    ((addToBucket bs k n).flatMap (fun b => b.2)).Perm
      (bs.flatMap (fun b => b.2) ++ [n]) := by
  induction bs with
  | nil => simp [addToBucket]
  | cons b rest ih =>
    obtain ⟨l, ns⟩ := b
    rw [addToBucket]
    split_ifs with hl
    · simp only [List.flatMap_cons, List.append_assoc]
      exact List.Perm.append_left ns List.perm_append_comm
    · simp only [List.flatMap_cons, List.append_assoc]
      exact List.Perm.append_left ns (by simpa using ih)

/-- Grouping nodes by level permutes the node list. -/
theorem nodesByLevel_flatten_perm (levels : List (String × ℕ)) (nodes : List Node) :
    ((nodesByLevel nodes levels).flatMap (fun b => b.2)).Perm nodes := by
  suffices h : ∀ (bs : List (ℕ × List Node)),
      ((nodes.foldl (fun buckets node =>
          addToBucket buckets ((levels.lookup node.id).getD 0) node) bs).flatMap
        (fun b => b.2)).Perm (bs.flatMap (fun b => b.2) ++ nodes) by
    simpa [nodesByLevel] using h []
  induction nodes with
  | nil => intro bs; simp
  | cons n rest ih =>
    intro bs
    rw [List.foldl_cons]
    refine (ih _).trans ?_
    refine (List.Perm.append_right rest (addToBucket_flatten_perm bs _ n)).trans ?_
    simp

/-- C8: neither layout mutates the caller's records — the force-directed
result keeps every node's non-position fields in place (positionally),
the hierarchical result is a permutation of the input nodes with only
positions replaced, and both return the edge list unchanged. -/
theorem layout_frame (nodes : List Node) (edges : List Edge) (options : LayoutOptions) :
    (applyForceDirectedLayout nodes edges options).edges = edges ∧
    (applyHierarchicalLayout nodes edges options).edges = edges ∧
    (applyForceDirectedLayout nodes edges options).nodes.map clearPos =
      nodes.map clearPos ∧
    ((applyHierarchicalLayout nodes edges options).nodes.map clearPos).Perm
      (nodes.map clearPos) := by
  refine ⟨rfl, rfl, ?_, ?_⟩
  · show ((simRun (resolveOptions options) edges (resolveOptions options).iterations
        (nodes.map (fun node =>
          SimNode.mk node.id node.position.x node.position.y 0 0 node))).map
        (fun ln => { ln.originalNode with position := { x := ln.x, y := ln.y } })).map
        clearPos = nodes.map clearPos
    rw [List.map_map]
    have h := simRun_originalNodes (resolveOptions options) edges
      (resolveOptions options).iterations
      (nodes.map (fun node => SimNode.mk node.id node.position.x node.position.y 0 0 node))
    calc ((simRun (resolveOptions options) edges (resolveOptions options).iterations
            (nodes.map (fun node =>
              SimNode.mk node.id node.position.x node.position.y 0 0 node))).map
            (clearPos ∘ fun ln => { ln.originalNode with position := { x := ln.x, y := ln.y } }))
        = ((simRun (resolveOptions options) edges (resolveOptions options).iterations
            (nodes.map (fun node =>
              SimNode.mk node.id node.position.x node.position.y 0 0 node))).map
            SimNode.originalNode).map clearPos := by
          rw [List.map_map]
          rfl
      _ = ((nodes.map (fun node =>
            SimNode.mk node.id node.position.x node.position.y 0 0 node)).map
            SimNode.originalNode).map clearPos := by rw [h]
      _ = nodes.map clearPos := by
          rw [List.map_map, List.map_map]
          rfl
  · show ((nodesByLevel nodes (hierLevels nodes edges)).flatMap
        (fun b => placeLevel (resolveOptions options).width b.1 b.2)).map clearPos
        |>.Perm (nodes.map clearPos)
    rw [List.map_flatMap]
    have hcongr : (nodesByLevel nodes (hierLevels nodes edges)).flatMap
        (fun b => (placeLevel (resolveOptions options).width b.1 b.2).map clearPos) =
        (nodesByLevel nodes (hierLevels nodes edges)).flatMap
        (fun b => b.2.map clearPos) :=
      List.flatMap_congr (fun b _ => placeLevel_map_clearPos _ _ _)
    rw [hcongr, ← List.map_flatMap]
    exact List.Perm.map clearPos (nodesByLevel_flatten_perm _ _)

/-! ### BFS level invariants (for C7) -/

/-- Lookups survive appending new bindings on the right. -/
theorem lookup_append_left {k : String} {v : ℕ} {l1 l2 : List (String × ℕ)}
    (h : l1.lookup k = some v) : (l1 ++ l2).lookup k = some v := by
  rw [List.lookup_append, h]
  rfl

/-- `enqueueChildren` only appends bindings: existing lookups survive. -/
theorem enqueueChildren_lookup_mono (level : ℕ) :
    ∀ (cs : List String) (levels acc : List (String × ℕ)) {k : String} {v : ℕ},
      levels.lookup k = some v →
      (enqueueChildren level cs levels acc).1.lookup k = some v := by
  intro cs
  induction cs with
  | nil => intro levels acc k v h; exact h
  | cons c rest ih =>
    intro levels acc k v h
    rw [enqueueChildren]
    split_ifs with hc
    · exact ih _ _ h
    · exact ih _ _ (lookup_append_left h)

/-- `bfsLoop` only appends bindings: existing lookups survive. -/
theorem bfsLoop_lookup_mono (adj : String → List String) :
    ∀ (fuel : ℕ) (levels queue levels1 : List (String × ℕ)),
      bfsLoop adj fuel levels queue = some levels1 →
      ∀ {k : String} {v : ℕ}, levels.lookup k = some v → levels1.lookup k = some v := by
  intro fuel
  induction fuel with
  | zero => intro levels queue levels1 h; exact absurd h (by simp [bfsLoop])
  | succ fuel ih =>
    intro levels queue levels1 h k v hk
    match queue with
    | [] =>
      rw [bfsLoop] at h
      injection h with h
      exact h ▸ hk
    | (nodeId, level) :: rest =>
      rw [bfsLoop] at h
      exact ih _ _ _ h (enqueueChildren_lookup_mono level (adj nodeId) levels [] hk)

/-- A fresh binding appended by `enqueueChildren` is immediately
visible. -/
theorem lookup_append_fresh {c : String} {v : ℕ} {levels : List (String × ℕ)}
    (h : levels.lookup c = none) : (levels ++ [(c, v)]).lookup c = some v := by
  rw [List.lookup_append, h]
  simp [List.lookup_cons]

/-- `enqueueChildren` preserves `LevelsClosed` when the children all
stem from a parent bound at the current level. -/
theorem enqueueChildren_closed (adj : String → List String) (q0 : String) (level : ℕ) :
    ∀ (cs : List String) (levels acc : List (String × ℕ)),
      (∀ c ∈ cs, c ∈ adj q0) →
      levels.lookup q0 = some level →
      LevelsClosed adj levels →
      LevelsClosed adj (enqueueChildren level cs levels acc).1 := by
  intro cs
  induction cs with
  | nil => intro levels acc _ _ hcl; exact hcl
  | cons c rest ih =>
    intro levels acc hcs hq0 hcl
    rw [enqueueChildren]
    split_ifs with hc
    · exact ih _ _ (fun x hx => hcs x (List.mem_cons_of_mem c hx)) hq0 hcl
    · refine ih _ _ (fun x hx => hcs x (List.mem_cons_of_mem c hx))
        (lookup_append_left hq0) ?_
      intro pr hpr
      rcases List.mem_append.mp hpr with hold | hnew
      · rcases hcl pr hold with h0 | ⟨q, lq, hadj, hlq, hsucc⟩
        · exact Or.inl h0
        · exact Or.inr ⟨q, lq, hadj, lookup_append_left hlq, hsucc⟩
      · rcases List.mem_singleton.mp hnew with rfl
        refine Or.inr ⟨q0, level, hcs c (List.mem_cons_self c rest), ?_, rfl⟩
        exact lookup_append_left hq0

/-- `enqueueChildren` keeps every accumulated queue item bound in the
grown level map. -/
theorem enqueueChildren_queueOk (level : ℕ) :
    ∀ (cs : List String) (levels acc : List (String × ℕ)),
      QueueOk levels acc →
      QueueOk (enqueueChildren level cs levels acc).1 (enqueueChildren level cs levels acc).2 := by
  intro cs
  induction cs with
  | nil => intro levels acc h; exact h
  | cons c rest ih =>
    intro levels acc hq
    rw [enqueueChildren]
    split_ifs with hc
    · exact ih _ _ hq
    · refine ih _ _ ?_
      intro pr hpr
      rcases List.mem_append.mp hpr with hold | hnew
      · exact lookup_append_left (hq pr hold)
      · rcases List.mem_singleton.mp hnew with rfl
        exact lookup_append_fresh (Option.not_isSome_iff_eq_none.mp hc)

/-- The BFS loop preserves `LevelsClosed`: every binding of the
resulting level map is a root binding or a child binding one level
below its parent. -/
theorem bfsLoop_closed (adj : String → List String) :
    ∀ (fuel : ℕ) (levels queue levels1 : List (String × ℕ)),
      bfsLoop adj fuel levels queue = some levels1 →
      LevelsClosed adj levels → QueueOk levels queue →
      LevelsClosed adj levels1 := by
  intro fuel
  induction fuel with
  | zero => intro levels queue levels1 h; exact absurd h (by simp [bfsLoop])
  | succ fuel ih =>
    intro levels queue levels1 h hcl hq
    match queue with
    | [] =>
      rw [bfsLoop] at h
      injection h with h
      exact h ▸ hcl
    | (nodeId, level) :: rest =>
      rw [bfsLoop] at h
      refine ih _ _ _ h ?_ ?_
      · exact enqueueChildren_closed adj nodeId level (adj nodeId) levels []
          (fun c hc => hc) (hq _ (List.mem_cons_self _ _)) hcl
      · intro pr hpr
        rcases List.mem_append.mp hpr with hrest | hnew
        · exact enqueueChildren_lookup_mono level (adj nodeId) levels []
            (hq pr (List.mem_cons_of_mem _ hrest))
        · exact enqueueChildren_queueOk level (adj nodeId) levels []
            (fun pr hpr => absurd hpr (List.not_mem_nil pr)) pr hnew

/-- Looking up any key of the all-zero root level map yields 0. -/
theorem lookup_map_zero (k : String) :
    ∀ (l : List Node), (∃ r ∈ l, r.id = k) →
      (l.map (fun r => (r.id, (0 : ℕ)))).lookup k = some 0 := by
  intro l
  induction l with
  | nil => rintro ⟨r, hr, -⟩; exact absurd hr (List.not_mem_nil r)
  | cons n rest ih =>
    rintro ⟨r, hr, hrk⟩
    rw [List.map_cons, List.lookup_cons]
    by_cases hk : k = n.id
    · simp [hk]
    · have : (k == n.id) = false := beq_false_of_ne hk
      rw [this]
      refine ih ⟨r, ?_, hrk⟩
      rcases List.mem_cons.mp hr with rfl | hmem
      · exact absurd hrk.symm hk
      · exact hmem

/-- The root level map binds every queued root at level 0. -/
theorem init_queueOk (roots : List Node) :
    QueueOk (roots.map (fun r => (r.id, (0 : ℕ))))
      (roots.map (fun r => (r.id, (0 : ℕ)))) := by
  intro pr hpr
  rcases List.mem_map.mp hpr with ⟨r, hr, rfl⟩
  exact lookup_map_zero r.id roots ⟨r, hr, rfl⟩

/-- The final level assignment is closed: each binding is level 0 or a
child of a parent bound one level up. -/
theorem hierLevels_closed (nodes : List Node) (edges : List Edge) :
    LevelsClosed (adjacencyOf edges) (hierLevels nodes edges) := by
  rw [hierLevels]
  have hinit : LevelsClosed (adjacencyOf edges)
      ((hierRootNodes nodes edges).map (fun r => (r.id, (0 : ℕ)))) := by
    intro pr hpr
    rcases List.mem_map.mp hpr with ⟨r, -, rfl⟩
    exact Or.inl rfl
  match hb : bfsLoop (adjacencyOf edges) (3 * (nodes.length + edges.length) + 1)
      ((hierRootNodes nodes edges).map (fun r => (r.id, 0)))
      ((hierRootNodes nodes edges).map (fun r => (r.id, 0))) with
  | none => simpa [hb] using hinit
  | some levels1 =>
    have := bfsLoop_closed (adjacencyOf edges) _ _ _ _ hb hinit
      (init_queueOk (hierRootNodes nodes edges))
    simpa [hb] using this

/-- Every root is bound at level 0 in the final level assignment. -/
theorem hierLevels_root_zero (nodes : List Node) (edges : List Edge) :
    ∀ r ∈ hierRootNodes nodes edges, (hierLevels nodes edges).lookup r.id = some 0 := by
  intro r hr
  rw [hierLevels]
  have hinit : ((hierRootNodes nodes edges).map
      (fun r => (r.id, (0 : ℕ)))).lookup r.id = some 0 :=
    lookup_map_zero r.id _ ⟨r, hr, rfl⟩
  match hb : bfsLoop (adjacencyOf edges) (3 * (nodes.length + edges.length) + 1)
      ((hierRootNodes nodes edges).map (fun r => (r.id, 0)))
      ((hierRootNodes nodes edges).map (fun r => (r.id, 0))) with
  | none => simpa [hb] using hinit
  | some levels1 =>
    have := bfsLoop_lookup_mono (adjacencyOf edges) _ _ _ _ hb hinit
    simpa [hb] using this

/-- The code's root computation equals the spec's zero-in-degree
description with first-node fallback. -/
theorem hierRootNodes_eq_spec (nodes : List Node) (edges : List Edge) :
    hierRootNodes nodes edges = specRootNodes nodes edges := by
  have hfilter : nodes.filter (fun n => n.id ∉ edges.map Edge.target) =
      nodes.filter (fun n => (edges.filter (fun e => e.target = n.id)).length = 0) := by
    refine List.filter_congr ?_
    intro n _
    simp only [decide_eq_decide, List.length_eq_zero, List.filter_eq_nil_iff,
      decide_eq_true_eq, List.mem_map, not_exists, not_and]
  unfold hierRootNodes specRootNodes
  simp only [hfilter]
  rcases nodes with _ | ⟨n, rest⟩ <;> simp

/-- Every bucket of `addToBucket` keeps nodes whose key equals the
bucket's level. -/
theorem addToBucket_key (key : Node → ℕ) :
    ∀ (bs : List (ℕ × List Node)) (n : Node),
      (∀ b ∈ bs, ∀ node ∈ b.2, key node = b.1) →
      ∀ b ∈ addToBucket bs (key n) n, ∀ node ∈ b.2, key node = b.1 := by
  intro bs
  induction bs with
  | nil =>
    intro n _ b hb node hnode
    rcases List.mem_singleton.mp hb with rfl
    rcases List.mem_singleton.mp hnode with rfl
    rfl
  | cons hd rest ih =>
    obtain ⟨l, ns⟩ := hd
    intro n hbs b hb node hnode
    rw [addToBucket] at hb
    split_ifs at hb with hl
    · rcases List.mem_cons.mp hb with rfl | hmem
      · rcases List.mem_append.mp hnode with hns | hn
        · exact hbs (l, ns) (List.mem_cons_self _ _) node hns
        · rcases List.mem_singleton.mp hn with rfl
          exact hl.symm
      · exact hbs b (List.mem_cons_of_mem _ hmem) node hnode
    · rcases List.mem_cons.mp hb with rfl | hmem
      · exact hbs (l, ns) (List.mem_cons_self _ _) node hnode
      · exact ih n (fun b hb => hbs b (List.mem_cons_of_mem _ hb)) b hmem node hnode

/-- Every bucket built by `nodesByLevel` contains exactly nodes of its
level (`levels.get(node.id) || 0`). -/
theorem nodesByLevel_key (levels : List (String × ℕ)) (nodes : List Node) :
    ∀ b ∈ nodesByLevel nodes levels, ∀ node ∈ b.2,
      ((levels.lookup node.id).getD 0) = b.1 := by
  suffices h : ∀ (bs : List (ℕ × List Node)),
      (∀ b ∈ bs, ∀ node ∈ b.2, ((levels.lookup node.id).getD 0) = b.1) →
      ∀ b ∈ nodes.foldl (fun buckets node =>
          addToBucket buckets ((levels.lookup node.id).getD 0) node) bs,
        ∀ node ∈ b.2, ((levels.lookup node.id).getD 0) = b.1 by
    exact h [] (fun b hb => absurd hb (List.not_mem_nil b))
  induction nodes with
  | nil => intro bs hbs; exact hbs
  | cons n rest ih =>
    intro bs hbs
    rw [List.foldl_cons]
    exact ih _ (addToBucket_key (fun node => (levels.lookup node.id).getD 0) bs n hbs)

/-- `placeLevel` preserves length. -/
theorem placeLevel_length (w : ℚ) (lvl : ℕ) (ns : List Node) :
    (placeLevel w lvl ns).length = ns.length := by
  simp [placeLevel]

/-- Every repositioned node keeps its id and sits at `y = level * 250`. -/
theorem placeLevel_mem (w : ℚ) (lvl : ℕ) (ns : List Node) :
    ∀ n2 ∈ placeLevel w lvl ns,
      ∃ node ∈ ns, n2.id = node.id ∧ n2.position.y = (lvl : ℚ) * 250 := by
  intro n2 hn2
  rw [placeLevel, List.mapIdx_eq_enum_map] at hn2
  rcases List.mem_map.mp hn2 with ⟨p, hp, rfl⟩
  refine ⟨p.2, ?_, rfl, rfl⟩
  have : p.2 ∈ ns.enum.map Prod.snd := List.mem_map_of_mem Prod.snd hp
  rwa [List.enum_map_snd] at this

/-- The x coordinate assigned to the i-th node of a level. -/
theorem placeLevel_x (w : ℚ) (lvl : ℕ) (ns : List Node) (i : ℕ)
    (hi : i < (placeLevel w lvl ns).length) :
    ((placeLevel w lvl ns).get ⟨i, hi⟩).position.x =
      (w - ((ns.length : ℚ) - 1) * 300) / 2 + (i : ℚ) * 300 := by
  have hi' : i < ns.length := by rwa [placeLevel_length] at hi
  simp only [placeLevel]
  rw [List.get_mapIdx _ _ _ hi']

/-- C7: the hierarchical layout. The root set is the zero-in-degree
nodes with the first node as fallback; the BFS level map binds every
root at 0 and every other binding one level below a parent through an
adjacency edge (first visit wins, so each node is bound once); every
output node sits at `y = level * 250`, where unreached nodes default to
level 0; within a level the i-th node sits at
`x = (width - (count - 1) * 300) / 2 + i * 300`, so same-level nodes
get pairwise distinct x positions spaced 300 apart and centered on the
canvas width; and for the chain A→B→C the levels are 0, 1, 2. -/
theorem applyHierarchicalLayout_spec (nodes : List Node) (edges : List Edge)
    (options : LayoutOptions) :
    hierRootNodes nodes edges = specRootNodes nodes edges ∧
    (∀ r ∈ hierRootNodes nodes edges, (hierLevels nodes edges).lookup r.id = some 0) ∧
    LevelsClosed (adjacencyOf edges) (hierLevels nodes edges) ∧
    (applyHierarchicalLayout nodes edges options).nodes =
      (nodesByLevel nodes (hierLevels nodes edges)).flatMap
        (fun b => placeLevel (resolveOptions options).width b.1 b.2) ∧
    (∀ n2 ∈ (applyHierarchicalLayout nodes edges options).nodes,
      n2.position.y =
        ((((hierLevels nodes edges).lookup n2.id).getD 0 : ℕ) : ℚ) * 250) ∧
    (∀ (w : ℚ) (lvl : ℕ) (ns : List Node) (i : ℕ)
        (hi : i < (placeLevel w lvl ns).length),
      ((placeLevel w lvl ns).get ⟨i, hi⟩).position.x =
        (w - ((ns.length : ℚ) - 1) * 300) / 2 + (i : ℚ) * 300) ∧
    (∀ (w : ℚ) (lvl : ℕ) (ns : List Node) (i j : ℕ)
        (hi : i < (placeLevel w lvl ns).length) (hj : j < (placeLevel w lvl ns).length),
      i ≠ j →
      ((placeLevel w lvl ns).get ⟨i, hi⟩).position.x ≠
        ((placeLevel w lvl ns).get ⟨j, hj⟩).position.x) ∧
    (∀ (w : ℚ) (lvl : ℕ) (ns : List Node)
        (h0 : 0 < (placeLevel w lvl ns).length)
        (hl : ns.length - 1 < (placeLevel w lvl ns).length),
      ((placeLevel w lvl ns).get ⟨0, h0⟩).position.x +
        ((placeLevel w lvl ns).get ⟨ns.length - 1, hl⟩).position.x = w) ∧
    ((hierLevels chainNodes chainEdges).lookup "A" = some 0 ∧
     (hierLevels chainNodes chainEdges).lookup "B" = some 1 ∧
     (hierLevels chainNodes chainEdges).lookup "C" = some 2) := by
  refine ⟨hierRootNodes_eq_spec nodes edges, hierLevels_root_zero nodes edges,
    hierLevels_closed nodes edges, rfl, ?_, ?_, ?_, ?_, ?_⟩
  · intro n2 hn2
    have hn2' : n2 ∈ (nodesByLevel nodes (hierLevels nodes edges)).flatMap
        (fun b => placeLevel (resolveOptions options).width b.1 b.2) := hn2
    rcases List.mem_flatMap.mp hn2' with ⟨b, hb, hmem⟩
    rcases placeLevel_mem _ _ _ n2 hmem with ⟨node, hnode, hid, hy⟩
    have hkey := nodesByLevel_key (hierLevels nodes edges) nodes b hb node hnode
    rw [hy, hid, hkey]
  · intro w lvl ns i hi
    exact placeLevel_x w lvl ns i hi
  · intro w lvl ns i j hi hj hij heq
    rw [placeLevel_x w lvl ns i hi, placeLevel_x w lvl ns j hj] at heq
    have h300 : (300 : ℚ) ≠ 0 := by norm_num
    have : (i : ℚ) = (j : ℚ) :=
      mul_right_cancel₀ h300 (by linarith)
    exact hij (Nat.cast_injective this)
  · intro w lvl ns h0 hl
    have hne : 0 < ns.length := by rwa [placeLevel_length] at h0
    rw [placeLevel_x w lvl ns 0 h0, placeLevel_x w lvl ns (ns.length - 1) hl]
    have hcast : ((ns.length - 1 : ℕ) : ℚ) = (ns.length : ℚ) - 1 := by
      rw [Nat.cast_sub hne, Nat.cast_one]
    rw [hcast]
    ring
  · refine ⟨?_, ?_, ?_⟩ <;> decide

/-! ### DFS cycle-detection correctness (for C6) -/

/-- A reachability fact decomposes at its first step. -/
theorem reaches_head_cases {adj : String → List String} {u z : String}
    (h : Reaches adj u z) : u = z ∨ ∃ w ∈ adj u, Reaches adj w z := by
  induction h with
  | refl => exact Or.inl rfl
  | tail h1 hw ih =>
    rcases ih with rfl | ⟨w1, hw1, hr⟩
    · exact Or.inr ⟨_, hw, Reaches.refl _⟩
    · exact Or.inr ⟨w1, hw1, Reaches.tail hr hw⟩

/-- Every stack entry reaches the node the chain ends at. -/
theorem chainTo_reaches (adj : String → List String) :
    ∀ (stack : List String) (v : String), ChainTo adj stack v →
      ∀ u ∈ stack, Reaches adj u v := by
  intro stack
  induction stack with
  | nil => intro v _ u hu; exact absurd hu (List.not_mem_nil u)
  | cons t rest ih =>
    rintro v ⟨hv, hchain⟩ u hu
    rcases List.mem_cons.mp hu with rfl | hmem
    · exact Reaches.tail (Reaches.refl u) hv
    · exact Reaches.tail (ih t hchain u hmem) hv

/-- Unfolding equation of the neighbor loop on the empty list. -/
theorem dfsVisitList_nil (adj : String → List String) (fuel : ℕ)
    (visited stack : List String) :
    dfsVisitList adj fuel visited stack [] = some (false, visited) := rfl

/-- Unfolding equation of the neighbor loop on a non-empty list. -/
theorem dfsVisitList_cons (adj : String → List String) (fuel : ℕ)
    (visited stack : List String) (w : String) (ws : List String) :
    dfsVisitList adj fuel visited stack (w :: ws) =
      match dfsVisit adj fuel visited stack w with
      | none => none
      | some (true, visited1) => some (true, visited1)
      | some (false, visited1) => dfsVisitList adj fuel visited1 stack ws := rfl

/-- The DFS only grows the visited set. -/
theorem dfs_mono (adj : String → List String) :
    ∀ fuel : ℕ,
      (∀ visited stack v b visited1,
        dfsVisit adj fuel visited stack v = some (b, visited1) →
        ∀ x ∈ visited, x ∈ visited1) ∧
      (∀ visited stack ws b visited1,
        dfsVisitList adj fuel visited stack ws = some (b, visited1) →
        ∀ x ∈ visited, x ∈ visited1) := by
  intro fuel
  induction fuel with
  | zero =>
    constructor
    · intro visited stack v b visited1 h
      exact absurd h (by simp [dfsVisit])
    · intro visited stack ws b visited1 h
      match ws with
      | [] =>
        rw [dfsVisitList_nil] at h
        injection h with h
        injection h with _ h
        exact fun x hx => h ▸ hx
      | w :: ws =>
        rw [dfsVisitList_cons] at h
        rw [dfsVisit] at h
        exact absurd h (by simp)
  | succ fuel ih =>
    have hvisit : ∀ visited stack v b visited1,
        dfsVisit adj (fuel + 1) visited stack v = some (b, visited1) →
        ∀ x ∈ visited, x ∈ visited1 := by
      intro visited stack v b visited1 h x hx
      rw [dfsVisit] at h
      split_ifs at h with h1 h2
      · injection h with h
        injection h with _ h
        exact h ▸ hx
      · injection h with h
        injection h with _ h
        exact h ▸ hx
      · exact ih.2 _ _ _ _ _ h x (List.mem_cons_of_mem v hx)
    refine ⟨hvisit, ?_⟩
    intro visited stack ws
    induction ws generalizing visited with
    | nil =>
      intro b visited1 h
      rw [dfsVisitList_nil] at h
      injection h with h
      injection h with _ h
      exact fun x hx => h ▸ hx
    | cons w ws ihw =>
      intro b visited1 h x hx
      rw [dfsVisitList_cons] at h
      match hv : dfsVisit adj (fuel + 1) visited stack w with
      | none => rw [hv] at h; exact absurd h (by simp)
      | some (true, v1) =>
        rw [hv] at h
        injection h with h
        injection h with _ h
        exact h ▸ hvisit _ _ _ _ _ hv x hx
      | some (false, v1) =>
        rw [hv] at h
        exact ihw v1 b visited1 h x (hvisit _ _ _ _ _ hv x hx)

/-- The not-yet-visited count never exceeds the universe size. -/
theorem cntNotVisited_le (U visited : List String) :
    cntNotVisited U visited ≤ U.length :=
  List.length_filter_le _ U

/-- Growing the visited set cannot increase the count. -/
theorem cntNotVisited_mono (U : List String) {v1 v2 : List String}
    (h : ∀ x ∈ v1, x ∈ v2) : cntNotVisited U v2 ≤ cntNotVisited U v1 := by
  unfold cntNotVisited
  induction U with
  | nil => exact le_refl 0
  | cons a U ih =>
    simp only [List.filter_cons]
    by_cases ha2 : a ∈ v2
    · rw [if_neg (by simp [ha2])]
      by_cases ha1 : a ∈ v1
      · rw [if_neg (by simp [ha1])]
        exact ih
      · rw [if_pos (by simp [ha1])]
        rw [List.length_cons]
        exact Nat.le_succ_of_le ih
    · have ha1 : a ∉ v1 := fun hx => ha2 (h a hx)
      rw [if_pos (by simp [ha2]), if_pos (by simp [ha1])]
      rw [List.length_cons, List.length_cons]
      exact Nat.succ_le_succ ih

/-- Visiting a fresh universe member strictly decreases the count. -/
theorem cntNotVisited_cons_lt (U : List String) {c : String} (visited : List String)
    (hcU : c ∈ U) (hcv : c ∉ visited) :
    cntNotVisited U (c :: visited) < cntNotVisited U visited := by
  induction U with
  | nil => exact absurd hcU (List.not_mem_nil c)
  | cons a U ih =>
    unfold cntNotVisited
    simp only [List.filter_cons]
    by_cases hac : a = c
    · subst hac
      rw [if_neg (by simp)]
      rw [if_pos (by simp [hcv])]
      rw [List.length_cons]
      exact Nat.lt_succ_of_le (cntNotVisited_mono U
        (fun x hx => List.mem_cons_of_mem a hx))
    · have heq : (!decide (a ∈ c :: visited)) = (!decide (a ∈ visited)) := by
        simp [List.mem_cons, hac]
      rw [heq]
      have hcU' : c ∈ U := by
        rcases List.mem_cons.mp hcU with h | h
        · exact absurd h.symm hac
        · exact h
      by_cases hav : a ∈ visited
      · rw [if_neg (by simp [hav]), if_neg (by simp [hav])]
        exact ih hcU'
      · rw [if_pos (by simp [hav]), if_pos (by simp [hav])]
        rw [List.length_cons, List.length_cons]
        exact Nat.succ_lt_succ (ih hcU')

/-- The DFS never exhausts its fuel when the fuel exceeds the number of
unvisited universe entries, for any universe closed under adjacency. -/
theorem dfs_isSome (adj : String → List String) (U : List String)
    (hadj : ∀ s, ∀ w ∈ adj s, w ∈ U) :
    ∀ fuel : ℕ,
      (∀ visited stack v, v ∈ U → cntNotVisited U visited < fuel →
        (dfsVisit adj fuel visited stack v).isSome) ∧
      (∀ visited stack ws, (∀ w ∈ ws, w ∈ U) → cntNotVisited U visited < fuel →
        (dfsVisitList adj fuel visited stack ws).isSome) := by
  intro fuel
  induction fuel with
  | zero =>
    constructor
    · intro visited stack v _ hcnt; exact absurd hcnt (Nat.not_lt_zero _)
    · intro visited stack ws _ hcnt; exact absurd hcnt (Nat.not_lt_zero _)
  | succ fuel ih =>
    have hvisit : ∀ visited stack v, v ∈ U → cntNotVisited U visited < fuel + 1 →
        (dfsVisit adj (fuel + 1) visited stack v).isSome := by
      intro visited stack v hvU hcnt
      rw [dfsVisit]
      split_ifs with h1 h2
      · rfl
      · rfl
      · refine ih.2 (v :: visited) (v :: stack) (adj v) (hadj v) ?_
        have hlt := cntNotVisited_cons_lt U visited hvU h2
        omega
    refine ⟨hvisit, ?_⟩
    intro visited stack ws
    induction ws generalizing visited with
    | nil => intro _ _; rw [dfsVisitList_nil]; rfl
    | cons w ws ihw =>
      intro hws hcnt
      rw [dfsVisitList_cons]
      have hsome := hvisit visited stack w (hws w (List.mem_cons_self _ _)) hcnt
      match hv : dfsVisit adj (fuel + 1) visited stack w with
      | none => rw [hv] at hsome; exact absurd hsome (by simp)
      | some (true, v1) => rfl
      | some (false, v1) =>
        refine ihw v1 (fun x hx => hws x (List.mem_cons_of_mem _ hx)) ?_
        exact lt_of_le_of_lt
          (cntNotVisited_mono U ((dfs_mono adj (fuel + 1)).1 _ _ _ _ _ hv)) hcnt

/-- Neither does the top scan of `isHierarchicalGraph`. -/
theorem isHierarchicalAux_isSome (adj : String → List String) (U : List String)
    (hadj : ∀ s, ∀ w ∈ adj s, w ∈ U) (fuel : ℕ) :
    ∀ (ids : List String) (visited : List String),
      (∀ n ∈ ids, n ∈ U) → cntNotVisited U visited < fuel →
      (isHierarchicalAux adj fuel visited ids).isSome := by
  intro ids
  induction ids with
  | nil => intro visited _ _; rfl
  | cons n rest ih =>
    intro visited hids hcnt
    rw [isHierarchicalAux]
    split_ifs with hn
    · exact ih visited (fun x hx => hids x (List.mem_cons_of_mem _ hx)) hcnt
    · have hsome := (dfs_isSome adj U hadj fuel).1 visited [] n
        (hids n (List.mem_cons_self _ _)) hcnt
      match hv : dfsVisit adj fuel visited [] n with
      | none => rw [hv] at hsome; exact absurd hsome (by simp)
      | some (true, v1) => rfl
      | some (false, v1) =>
        refine ih v1 (fun x hx => hids x (List.mem_cons_of_mem _ hx)) ?_
        exact lt_of_le_of_lt
          (cntNotVisited_mono U ((dfs_mono adj fuel).1 _ _ _ _ _ hv)) hcnt

/-- DFS returning `false` preserves the invariant: every finished node
has its successors visited and no reachable cycle; the visited node
itself ends finished. -/
theorem dfs_false_inv (adj : String → List String) :
    ∀ fuel : ℕ,
      (∀ visited stack v visited1,
        dfsVisit adj fuel visited stack v = some (false, visited1) →
        DfsInv adj visited stack →
        DfsInv adj visited1 stack ∧ v ∈ visited1 ∧ v ∉ stack) ∧
      (∀ visited stack ws visited1,
        dfsVisitList adj fuel visited stack ws = some (false, visited1) →
        DfsInv adj visited stack →
        DfsInv adj visited1 stack ∧ ∀ w ∈ ws, w ∈ visited1 ∧ w ∉ stack) := by
  intro fuel
  induction fuel with
  | zero =>
    constructor
    · intro visited stack v visited1 h _
      exact absurd h (by simp [dfsVisit])
    · intro visited stack ws visited1 h hinv
      match ws with
      | [] =>
        rw [dfsVisitList_nil] at h
        injection h with h
        injection h with _ hvv
        subst hvv
        exact ⟨hinv, fun w hw => absurd hw (List.not_mem_nil w)⟩
      | w :: ws =>
        rw [dfsVisitList_cons] at h
        rw [dfsVisit] at h
        simp at h
  | succ fuel ih =>
    have hvisit : ∀ visited stack v visited1,
        dfsVisit adj (fuel + 1) visited stack v = some (false, visited1) →
        DfsInv adj visited stack →
        DfsInv adj visited1 stack ∧ v ∈ visited1 ∧ v ∉ stack := by
      intro visited stack v visited1 h hinv
      rw [dfsVisit] at h
      split_ifs at h with h1 h2
      · simp at h
      · injection h with h
        injection h with _ hvv
        subst hvv
        exact ⟨hinv, h2, h1⟩
      · have hinv1 : DfsInv adj (v :: visited) (v :: stack) := by
          intro u hu hustack
          have huv : u ≠ v := fun he => hustack (he ▸ List.mem_cons_self v stack)
          rcases List.mem_cons.mp hu with rfl | humem
          · exact absurd rfl huv
          · have hustack2 : u ∉ stack := fun hs => hustack (List.mem_cons_of_mem v hs)
            obtain ⟨hclosed, hsafe⟩ := hinv u humem hustack2
            exact ⟨fun w hw => List.mem_cons_of_mem v (hclosed w hw), hsafe⟩
        obtain ⟨hinv2, hws⟩ := ih.2 _ _ _ _ h hinv1
        have hvmem : v ∈ visited1 :=
          (dfs_mono adj fuel).2 _ _ _ _ _ h v (List.mem_cons_self v visited)
        refine ⟨?_, hvmem, h1⟩
        intro u hu hustack
        by_cases huv : u = v
        · subst huv
          refine ⟨fun w hw => (hws w hw).1, ?_⟩
          intro z hreach hcyc
          rcases reaches_head_cases hreach with rfl | ⟨w, hw, hrz⟩
          · obtain ⟨w2, hw2, hwv2⟩ := hcyc
            obtain ⟨hwv1, hwstack⟩ := hws w2 hw2
            obtain ⟨-, hsafew⟩ := hinv2 w2 hwv1 hwstack
            exact hsafew u hwv2 ⟨w2, hw2, hwv2⟩
          · obtain ⟨hwv1, hwstack⟩ := hws w hw
            obtain ⟨-, hsafew⟩ := hinv2 w hwv1 hwstack
            exact hsafew z hrz hcyc
        · have hcons : u ∉ v :: stack := by
            intro hmem
            rcases List.mem_cons.mp hmem with h5 | h5
            · exact huv h5
            · exact hustack h5
          exact hinv2 u hu hcons
    refine ⟨hvisit, ?_⟩
    intro visited stack ws
    induction ws generalizing visited with
    | nil =>
      intro visited1 h hinv
      rw [dfsVisitList_nil] at h
      injection h with h
      injection h with _ hvv
      subst hvv
      exact ⟨hinv, fun w hw => absurd hw (List.not_mem_nil w)⟩
    | cons w ws ihw =>
      intro visited1 h hinv
      rw [dfsVisitList_cons] at h
      match hv : dfsVisit adj (fuel + 1) visited stack w with
      | none => rw [hv] at h; simp at h
      | some (true, v1) =>
        rw [hv] at h
        simp at h
      | some (false, v1) =>
        rw [hv] at h
        obtain ⟨hinvw, hwv1, hwstack⟩ := hvisit _ _ _ _ hv hinv
        obtain ⟨hinv2, hrest⟩ := ihw v1 visited1 h hinvw
        have hwv : w ∈ visited1 :=
          (dfs_mono adj (fuel + 1)).2 _ _ _ _ _ h w hwv1
        refine ⟨hinv2, ?_⟩
        intro x hx
        rcases List.mem_cons.mp hx with rfl | hxmem
        · exact ⟨hwv, hwstack⟩
        · exact hrest x hxmem

/-- DFS returning `true` means the graph has a cycle: the recursion
stack is a chain, and hitting a stack node closes it. -/
theorem dfs_true_cycle (adj : String → List String) :
    ∀ fuel : ℕ,
      (∀ visited stack v visited1,
        dfsVisit adj fuel visited stack v = some (true, visited1) →
        ChainTo adj stack v → ∃ z, CycleAt adj z) ∧
      (∀ visited stack ws visited1,
        dfsVisitList adj fuel visited stack ws = some (true, visited1) →
        (∀ w ∈ ws, ChainTo adj stack w) → ∃ z, CycleAt adj z) := by
  intro fuel
  induction fuel with
  | zero =>
    constructor
    · intro visited stack v visited1 h _
      exact absurd h (by simp [dfsVisit])
    · intro visited stack ws visited1 h _
      match ws with
      | [] => rw [dfsVisitList_nil] at h; simp at h
      | w :: ws =>
        rw [dfsVisitList_cons] at h
        rw [dfsVisit] at h
        simp at h
  | succ fuel ih =>
    have hvisit : ∀ visited stack v visited1,
        dfsVisit adj (fuel + 1) visited stack v = some (true, visited1) →
        ChainTo adj stack v → ∃ z, CycleAt adj z := by
      intro visited stack v visited1 h hchain
      rw [dfsVisit] at h
      split_ifs at h with h1 h2
      · clear h
        rcases stack with _ | ⟨t, rest⟩
        · exact absurd h1 (List.not_mem_nil v)
        · obtain ⟨hvt, hrest⟩ := hchain
          rcases List.mem_cons.mp h1 with rfl | hmem
          · exact ⟨v, v, hvt, Reaches.refl v⟩
          · exact ⟨t, v, hvt, chainTo_reaches adj rest t hrest v hmem⟩
      · simp at h
      · exact ih.2 _ _ _ _ h (fun w hw => ⟨hw, hchain⟩)
    refine ⟨hvisit, ?_⟩
    intro visited stack ws
    induction ws generalizing visited with
    | nil =>
      intro visited1 h _
      rw [dfsVisitList_nil] at h
      simp at h
    | cons w ws ihw =>
      intro visited1 h hchain
      rw [dfsVisitList_cons] at h
      match hv : dfsVisit adj (fuel + 1) visited stack w with
      | none => rw [hv] at h; simp at h
      | some (true, v1) =>
        exact hvisit _ _ _ _ hv (hchain w (List.mem_cons_self _ _))
      | some (false, v1) =>
        rw [hv] at h
        exact ihw v1 visited1 h (fun x hx => hchain x (List.mem_cons_of_mem _ hx))

/-- When the top scan returns `true`, every listed node is safe: no
cycle is reachable from it. -/
theorem aux_true_safe (adj : String → List String) (fuel : ℕ) :
    ∀ (ids visited : List String),
      isHierarchicalAux adj fuel visited ids = some true →
      DfsInv adj visited [] → ∀ n ∈ ids, Safe adj n := by
  intro ids
  induction ids with
  | nil => intro visited _ _ n hn; exact absurd hn (List.not_mem_nil n)
  | cons m rest ih =>
    intro visited h hinv n hn
    rw [isHierarchicalAux] at h
    split_ifs at h with hm
    · rcases List.mem_cons.mp hn with rfl | hnrest
      · exact (hinv n hm (List.not_mem_nil n)).2
      · exact ih visited h hinv n hnrest
    · match hv : dfsVisit adj fuel visited [] m with
      | none => rw [hv] at h; simp at h
      | some (true, v1) => rw [hv] at h; simp at h
      | some (false, v1) =>
        rw [hv] at h
        obtain ⟨hinv1, hmv1, -⟩ := (dfs_false_inv adj fuel).1 _ _ _ _ hv hinv
        rcases List.mem_cons.mp hn with rfl | hnrest
        · exact (hinv1 n hmv1 (List.not_mem_nil n)).2
        · exact ih v1 h hinv1 n hnrest

/-- When the top scan returns `false`, the graph has a cycle. -/
theorem aux_false_cycle (adj : String → List String) (fuel : ℕ) :
    ∀ (ids visited : List String),
      isHierarchicalAux adj fuel visited ids = some false → ∃ z, CycleAt adj z := by
  intro ids
  induction ids with
  | nil => intro visited h; rw [isHierarchicalAux] at h; simp at h
  | cons m rest ih =>
    intro visited h
    rw [isHierarchicalAux] at h
    split_ifs at h with hm
    · exact ih visited h
    · match hv : dfsVisit adj fuel visited [] m with
      | none => rw [hv] at h; simp at h
      | some (true, v1) =>
        exact (dfs_true_cycle adj fuel).1 _ _ _ _ hv trivial
      | some (false, v1) =>
        rw [hv] at h
        exact ih v1 h

/-- C6: for a graph whose edges reference existing node ids,
`isHierarchicalGraph` is false on an edgeless graph, and otherwise true
exactly when no cycle is reachable from any node; the cycle A→B→C→A is
reported cyclic and the tree A→B, A→C, B→D acyclic. -/
theorem isHierarchicalGraph_acyclic_iff (nodes : List Node) (edges : List Edge)
    (href : ∀ e ∈ edges, e.source ∈ nodes.map Node.id ∧ e.target ∈ nodes.map Node.id) :
    (edges = [] → isHierarchicalGraph nodes edges = false) ∧
    (edges ≠ [] →
      (isHierarchicalGraph nodes edges = true ↔
        ∀ u ∈ nodes.map Node.id, ∀ z, Reaches (adjacencyOf edges) u z →
          ¬CycleAt (adjacencyOf edges) z)) ∧
    isHierarchicalGraph chainNodes cycleEdges = false ∧
    isHierarchicalGraph treeNodes treeEdges = true := by
  refine ⟨?_, ?_, by decide, by decide⟩
  · rintro rfl; rfl
  · intro hne
    have hlen : ¬(edges.length = 0) := by
      simpa [List.length_eq_zero] using hne
    rw [isHierarchicalGraph, if_neg hlen]
    have hadj : ∀ s, ∀ w ∈ adjacencyOf edges s,
        w ∈ nodes.map Node.id ++ edges.map Edge.target := by
      intro s w hw
      rcases List.mem_map.mp hw with ⟨e, hef, rfl⟩
      exact List.mem_append_right _
        (List.mem_map_of_mem Edge.target (List.mem_filter.mp hef).1)
    have hids : ∀ n ∈ nodes.map Node.id,
        n ∈ nodes.map Node.id ++ edges.map Edge.target :=
      fun n hn => List.mem_append_left _ hn
    have hcnt : cntNotVisited (nodes.map Node.id ++ edges.map Edge.target) [] <
        nodes.length + edges.length + 1 := by
      have h1 := cntNotVisited_le (nodes.map Node.id ++ edges.map Edge.target) []
      have h2 : (nodes.map Node.id ++ edges.map Edge.target).length =
          nodes.length + edges.length := by simp
      omega
    have hsome := isHierarchicalAux_isSome (adjacencyOf edges) _ hadj
      (nodes.length + edges.length + 1) (nodes.map Node.id) [] hids hcnt
    match hb : isHierarchicalAux (adjacencyOf edges) (nodes.length + edges.length + 1)
        [] (nodes.map Node.id) with
    | none => rw [hb] at hsome; simp at hsome
    | some true =>
      simp only [Option.getD_some]
      constructor
      · intro _ u hu z hreach hcyc
        have hsafe := aux_true_safe (adjacencyOf edges) _ (nodes.map Node.id) [] hb
          (fun u hu _ => absurd hu (List.not_mem_nil u)) u hu
        exact hsafe z hreach hcyc
      · intro _; trivial
    | some false =>
      simp only [Option.getD_some]
      constructor
      · intro hfalse; exact absurd hfalse (by simp)
      · intro hsafeAll
        exfalso
        obtain ⟨z, hcyc⟩ := aux_false_cycle (adjacencyOf edges) _ (nodes.map Node.id) [] hb
        obtain ⟨w, hw, hreach⟩ := hcyc
        obtain ⟨e, hef, het⟩ := List.mem_map.mp hw
        have he : e ∈ edges := (List.mem_filter.mp hef).1
        have hsz : e.source = z := of_decide_eq_true (List.mem_filter.mp hef).2
        have hz : z ∈ nodes.map Node.id := hsz ▸ (href e he).1
        exact hsafeAll z hz z (Reaches.refl z) ⟨w, hw, hreach⟩

/-- Witness for C6 at the tree A→B, A→C, B→D. -/
theorem isHierarchicalGraph_acyclic_iff_witness :
    (treeEdges = [] → isHierarchicalGraph treeNodes treeEdges = false) ∧
    (treeEdges ≠ [] →
      (isHierarchicalGraph treeNodes treeEdges = true ↔
        ∀ u ∈ treeNodes.map Node.id, ∀ z, Reaches (adjacencyOf treeEdges) u z →
          ¬CycleAt (adjacencyOf treeEdges) z)) ∧
    isHierarchicalGraph chainNodes cycleEdges = false ∧
    isHierarchicalGraph treeNodes treeEdges = true :=
  isHierarchicalGraph_acyclic_iff treeNodes treeEdges (by decide)

end Tribal
